import Mathlib

set_option maxRecDepth 8000

/-!
# Verification of the header-insertion engine (`add_headers.py`)

A shallow embedding of the core of `add_headers.py`: the per-file header
transaction (`process_file`), the comment-style registry, the insertion
planner (shebang / SPDX detection), the header composer, and the
creation-date fallback chain.

Modelling conventions:
* Text is `List Char`; `chars` converts a Lean string literal.
* `str.splitlines()` is modelled for LF-separated text (`'\n'` is the only
  line boundary considered; the repository's files are LF text).
* Filesystem effects are explicit: the transaction acts on a `FileState`
  holding the target file and its `.bak` sibling, and I/O failures are
  injected through a `Faults` record (a `some msg` makes the corresponding
  Python `open(...)`/`write` raise, which the code converts to a status).
* The description heuristic (`infer_description`) and the date/`strftime`
  formatting are external collaborators of the transaction (spec §1 places
  them outside the core); their results for the processed path are passed
  to `process_file` as the `inferDesc`, `created` and `today` arguments.
  The creation-date resolution chain itself (`get_file_creation_date`) is
  modelled separately at the timestamp level.
-/

/-- The characters of a string literal. -/
def chars (s : String) : List Char := s.data

/-- Lowercase a piece of text character-wise (Python `str.lower` on the
ASCII extensions this script compares). -/
def lowerChars (s : List Char) : List Char := s.map Char.toLower

/-- Index of the last occurrence of `c` in `p` (Python `str.rfind`,
with `none` for the `-1` "absent" result). -/
def lastIdxOf (c : Char) (p : List Char) : Option Nat :=
  ((List.range p.length).filter (fun i => p.get? i == some c)).getLast?

/-- `os.path.splitext`: split at the last dot of the final path component,
provided the component is not made of leading dots only. -/
def splitext (p : List Char) : List Char × List Char :=
  match lastIdxOf '.' p with
  | none => (p, [])
  | some d =>
    let fi : Nat := match lastIdxOf '/' p with
      | none => 0
      | some s0 => s0 + 1
    if (match lastIdxOf '/' p with
        | none => true
        | some s0 => decide (s0 < d)) then
      if (List.range d).any (fun i => decide (fi ≤ i) && (p.get? i != some '.')) then
        (p.take d, p.drop d)
      else (p, [])
    else (p, [])

/-- `os.path.basename`: the part of the path after the last slash. -/
def basename (p : List Char) : List Char :=
  match lastIdxOf '/' p with
  | none => p
  | some i => p.drop (i + 1)

/-- The lowercased extension `os.path.splitext(path)[1].lower()`, exactly as
`should_skip` and `process_file` both recompute it. -/
def extLower (p : List Char) : List Char := lowerChars (splitext p).2

/-- Python's `needle in hay` on strings: `needle` occurs as a contiguous
substring of `hay`. -/
def containsSub (hay needle : List Char) : Bool :=
  (List.range (hay.length + 1)).any (fun i => needle.isPrefixOf (hay.drop i))

/-- Number of start positions at which `needle` occurs in `hay`. -/
def countOccs (needle hay : List Char) : Nat :=
  ((List.range (hay.length + 1)).filter (fun i => needle.isPrefixOf (hay.drop i))).length

/-- `"\n".join`: join lines with a single LF. -/
def joinNl : List (List Char) → List Char
  | [] => []
  | [l] => l
  | l :: ls => l ++ '\n' :: joinNl ls

/-- Split at every LF; always returns one more piece than there are LFs. -/
def splitNl : List Char → List (List Char)
  | [] => [[]]
  | c :: cs =>
    if c = '\n' then [] :: splitNl cs
    else
      match splitNl cs with
      | [] => [[c]]
      | h :: t => (c :: h) :: t

/-- Python `str.endswith("\n")`. -/
def endsNl (s : List Char) : Bool := s.getLast? == some '\n'

/-- `str.splitlines()` for LF text: like `splitNl` but an empty string has
no lines and a trailing LF does not open a final empty line. -/
def splitlines (s : List Char) : List (List Char) :=
  if s = [] then []
  else if endsNl s then (splitNl s).dropLast
  else splitNl s

/-- `HEADER_MARKER_BEGIN`. -/
def HEADER_MARKER_BEGIN : List Char := chars "=== FILE-HEADER-START ==="

/-- `HEADER_MARKER_END`. -/
def HEADER_MARKER_END : List Char := chars "=== FILE-HEADER-END ==="

/-- One entry of the extension → comment-style table:
`(yorum_baslangıç, yorum_bitiş, tek_satır_mı)`. -/
structure CommentStyle where
  start : List Char
  stop : List Char
  single : Bool
deriving DecidableEq

/-- `COMMENT_STYLES`. -/
def COMMENT_STYLES : List (List Char × CommentStyle) :=
  [ (chars ".c",    ⟨chars "/*",  chars "*/", false⟩),
    (chars ".h",    ⟨chars "/*",  chars "*/", false⟩),
    (chars ".cpp",  ⟨chars "/*",  chars "*/", false⟩),
    (chars ".hpp",  ⟨chars "/*",  chars "*/", false⟩),
    (chars ".java", ⟨chars "/**", chars "*/", false⟩),
    (chars ".js",   ⟨chars "/**", chars "*/", false⟩),
    (chars ".ts",   ⟨chars "/**", chars "*/", false⟩),
    (chars ".jsx",  ⟨chars "/**", chars "*/", false⟩),
    (chars ".tsx",  ⟨chars "/**", chars "*/", false⟩),
    (chars ".py",   ⟨chars "\"\"\"", chars "\"\"\"", false⟩),
    (chars ".sh",   ⟨chars "#",   chars "", true⟩),
    (chars ".bash", ⟨chars "#",   chars "", true⟩),
    (chars ".zsh",  ⟨chars "#",   chars "", true⟩),
    (chars ".sol",  ⟨chars "//",  chars "", true⟩),
    (chars ".go",   ⟨chars "/**", chars "*/", false⟩),
    (chars ".rb",   ⟨chars "#",   chars "", true⟩),
    (chars ".swift", ⟨chars "/**", chars "*/", false⟩),
    (chars ".php",  ⟨chars "/*",  chars "*/", false⟩),
    (chars ".css",  ⟨chars "/*",  chars "*/", false⟩),
    (chars ".scss", ⟨chars "/*",  chars "*/", false⟩),
    (chars ".kt",   ⟨chars "/**", chars "*/", false⟩) ]

/-- `SKIP_EXTS`: extensions never given a header. -/
def SKIP_EXTS : List (List Char) :=
  [ chars ".json", chars ".yml", chars ".yaml", chars ".toml", chars ".lock",
    chars ".png", chars ".jpg", chars ".jpeg", chars ".gif", chars ".webp",
    chars ".svg", chars ".ico",
    chars ".pdf", chars ".zip", chars ".gz", chars ".bz2", chars ".xz", chars ".7z",
    chars ".bin", chars ".o", chars ".so", chars ".dylib", chars ".a",
    chars ".class", chars ".jar" ]

/-- `choose_comment_style`: table lookup with the generic block-comment
default for unknown extensions. -/
def choose_comment_style (ext : List Char) : CommentStyle :=
  (COMMENT_STYLES.lookup ext).getD ⟨chars "/*", chars "*/", false⟩

/-- `USAGE_BLOCK.strip().splitlines()`: the fixed usage documentation,
already split into its lines as `build_usage_block` consumes it. -/
def USAGE_LINES : List (List Char) :=
  [ List.replicate 58 '=',  -- the source's 58-character '=' banner row
    chars " Script:      add_headers.py",
    chars " Author:      Irfan Gedik",
    chars " Created:     27.09.2025",
    chars " Last Update: 27.09.2025",
    chars " Version:     1.1",
    chars "",
    chars " Description:",
    chars "   Bu script, verilen dosya veya klasördeki kaynak kodlarına",
    chars "   evrensel dosya başlığı (file header comment) ekler.",
    chars "   Header; Created, Last Update, Author, Version, License,",
    chars "   Description gibi bilgileri içerir. Shebang/SPDX korunur.",
    chars "",
    chars " Usage:",
    chars "   python3 add_headers.py <dosya_veya_klasör> [opsiyonlar]",
    chars "",
    chars " Options:",
    chars "   --author \"Ad Soyad\"         Yazar adı (varsayılan: Irfan Gedik)",
    chars "   --version \"x.y.z\"           Versiyon (varsayılan: 1.0)",
    chars "   --license \"MIT License\"     Lisans bilgisi",
    chars "   --description \"Açıklama\"    Dosya açıklaması",
    chars "   --auto-description          Dosya adına/uzantıya göre açıklamayı üret",
    chars "   --include-exts .py .c .sol  Sadece belirtilen uzantılara uygula",
    chars "   --exclude node_modules .git Belirtilen yolları atla",
    chars "   --dry-run                   Deneme modu (dosya yazılmaz)",
    chars "   --no-backup                 .bak yedeği alma",
    chars "   --overwrite                 Önceden eklenmiş header’ı güncelle",
    chars "   --with-hidden               Gizli dosya/klasörleri de tara",
    chars "   --with-usage                Dosya başına bu Usage bloğunu da ekle",
    chars "   --encoding utf-8            Dosya encoding (varsayılan: utf-8)",
    chars "   --verbose                   Ayrıntılı çıktı",
    List.replicate 58 '=' ]

/-- `build_usage_block`: render the usage lines in the extension's comment
style, ending with a blank separator line. -/
def build_usage_block (ext : List Char) : List Char :=
  let st := choose_comment_style ext
  if st.single then
    joinNl (USAGE_LINES.map (fun ln => st.start ++ chars " " ++ ln)) ++ chars "\n\n"
  else
    joinNl ((st.start :: USAGE_LINES) ++ [st.stop]) ++ chars "\n\n"

/-- The `core_lines` of `build_header_text`: the marker-bounded field
lines, before comment wrapping. -/
def header_core_lines (file_name author created today version license description :
    List Char) : List (List Char) :=
  [ HEADER_MARKER_BEGIN,
    List.replicate 46 '=',  -- the source's 46-character '=' rule row
    chars " File:        " ++ file_name,
    chars " Author:      " ++ author,
    chars " Created:     " ++ created,
    chars " Last Update: " ++ today,
    chars " Version:     " ++ version,
    chars "",
    chars " Description:",
    chars "   " ++ (if description.isEmpty then chars "[Dosya açıklaması]" else description),
    chars "",
    chars " License:",
    chars "   " ++ license,
    List.replicate 46 '=',
    HEADER_MARKER_END ]

/-- `build_header_text`: the marker-bounded metadata block.  `created` and
`today` are the two `strftime("%d.%m.%Y")` results. -/
def build_header_text (file_name author created today version license description ext :
    List Char) : List Char :=
  let st := choose_comment_style ext
  let core_lines := header_core_lines file_name author created today version license description
  if st.single then
    joinNl (core_lines.map (fun ln => st.start ++ chars " " ++ ln)) ++ chars "\n\n"
  else
    joinNl ((st.start :: core_lines) ++ [st.stop]) ++ chars "\n\n"

/-- `already_has_header`: both sentinel markers occur somewhere in the
content. -/
def already_has_header (content : List Char) : Bool :=
  containsSub content HEADER_MARKER_BEGIN && containsSub content HEADER_MARKER_END

/-- `should_skip`: skip-extension set, include-extension allow-list, and
exclude path substrings. -/
def should_skip (path : List Char) (include_exts exclude : List (List Char)) : Bool :=
  let ext := extLower path
  if SKIP_EXTS.contains ext then true
  else if !include_exts.isEmpty && !include_exts.contains ext then true
  else exclude.any (fun pat => !pat.isEmpty && containsSub path pat)

/-- The token looked for in `.sol` files. -/
def SPDX_TOKEN : List Char := chars "SPDX-License-Identifier:"

/-- `detect_shebang_and_spdx`: `(shebang_end_idx, spdx_idx)`; `none` stands
for the Python `-1`. -/
def detect_shebang_and_spdx (lines : List (List Char)) (ext : List Char) :
    Option Nat × Option Nat :=
  let shebang_end : Option Nat :=
    match lines with
    | [] => none
    | l0 :: _ => if (chars "#!").isPrefixOf l0 then some 0 else none
  let spdx_idx : Option Nat :=
    if ext = chars ".sol" then
      (lines.take 10).findIdx? (fun ln => containsSub ln SPDX_TOKEN)
    else none
  (shebang_end, spdx_idx)

/-- The insertion offset computed in `process_file` from the two
detections. -/
def insert_offset (lines : List (List Char)) (ext : List Char) : Nat :=
  let d := detect_shebang_and_spdx lines ext
  let i1 : Nat := match d.2 with
    | some i => i + 1
    | none => 0
  match d.1 with
  | some s => max i1 (s + 1)
  | none => i1

/-- The `SPLICE` step of `process_file`: content before the insertion
offset, an LF when the offset is positive, the header, the remaining
lines, and the original trailing LF when there was one. -/
def compute_new_content (content header ext : List Char) : List Char :=
  let lines := splitlines content
  let k := insert_offset lines ext
  joinNl (lines.take k) ++ (if 0 < k then ['\n'] else [])
    ++ header
    ++ (joinNl (lines.drop k) ++ (if endsNl content then ['\n'] else []))

/-- Result of reading the target file (Python `open(...).read()`), with the
error message of a raising read. -/
inductive ReadResult where
  | ok (content : List Char)
  | fail (msg : List Char)
deriving DecidableEq

/-- The slice of the filesystem a single transaction touches: the target
file and its `.bak` sibling (`none` = the backup file does not exist). -/
structure FileState where
  target : ReadResult
  bak : Option (List Char)
deriving DecidableEq

/-- Injected I/O failures: `some msg` makes the corresponding write raise
with that message. -/
structure Faults where
  bakWrite : Option (List Char)
  targetWrite : Option (List Char)
deriving DecidableEq

/-- The closed status set returned by `process_file`. -/
inductive Status where
  | SKIP_FILTER
  | ALREADY
  | DRY_RUN
  | ADDED
  | UPDATED
  | READ_FAIL (msg : List Char)
  | WRITE_FAIL (msg : List Char)
  | BACKUP_FAIL (msg : List Char)
deriving DecidableEq

/-- The redundant boolean `process_file` pairs with each status. -/
def Status.ok : Status → Bool
  | .DRY_RUN | .ADDED | .UPDATED => true
  | _ => false

/-- Discriminator for the backup-failure tag. -/
def Status.isBackupFail : Status → Bool
  | .BACKUP_FAIL _ => true
  | _ => false

/-- The per-file configuration surface of `process_file`. -/
structure Args where
  author : List Char
  version : List Char
  license : List Char
  description : List Char
  auto_description : Bool
  include_exts : List (List Char)
  exclude : List (List Char)
  dry_run : Bool
  no_backup : Bool
  overwrite : Bool
  with_usage : Bool
deriving DecidableEq

/-- The header text `process_file` assembles before splicing: the
description defaulting (`--auto-description` or an empty/default
`--description` selects the external heuristic's result), the composed
metadata block, and the optional usage block on top. -/
def effective_header (path : List Char) (args : Args)
    (created today inferDesc : List Char) : List Char :=
  let ext := extLower path
  let effective_description :=
    if args.auto_description || args.description == ([] : List Char)
        || args.description == chars "[Dosya açıklaması]" then
      inferDesc
    else args.description
  let header0 := build_header_text (basename path) args.author created today
    args.version args.license effective_description ext
  if args.with_usage then build_usage_block ext ++ header0 else header0

/-- `process_file`: the whole per-file transaction.  `created`/`today` are
the formatted dates the date resolver / `strftime` produce for this call,
and `inferDesc` is `infer_description(path, ext)` (the external description
heuristic).  Returns the status and the resulting filesystem slice. -/
def process_file (path : List Char) (args : Args)
    (created today inferDesc : List Char)
    (st : FileState) (faults : Faults) : Status × FileState :=
  let ext := extLower path
  if should_skip path args.include_exts args.exclude then (.SKIP_FILTER, st)
  else
    match st.target with
    | .fail e => (.READ_FAIL e, st)
    | .ok content =>
      let already := already_has_header content
      if already && !args.overwrite then (.ALREADY, st)
      else
        let header := effective_header path args created today inferDesc
        let new_content := compute_new_content content header ext
        if args.dry_run then (.DRY_RUN, st)
        else
          let attempt := !args.no_backup && st.bak.isNone
          match (if attempt then faults.bakWrite else none) with
          | some e => (.BACKUP_FAIL e, st)
          | none =>
            let st1 : FileState := if attempt then { st with bak := some content } else st
            match faults.targetWrite with
            | some e => (.WRITE_FAIL e, st1)
            | none =>
              ((if already then .UPDATED else .ADDED), { st1 with target := .ok new_content })

/-- One `os.stat` result: the optional `st_birthtime` attribute and
`st_mtime`, as raw timestamps. -/
structure StatInfo where
  birthtime : Option Int
  mtime : Int
deriving DecidableEq

/-- `run_git_date`: `gitOut` is the parsed dates of the
`git log --diff-filter=A` output lines, newest first (`none` when the
command or the date parse raises).  The last line is the oldest addition
commit; empty output yields nothing. -/
def run_git_date (gitOut : Option (List Int)) : Option Int :=
  match gitOut with
  | none => none
  | some l => l.getLast?

/-- `get_file_creation_date`: birth time if the attribute exists and is
positive, else the git first-commit date, else `st_mtime`, else the current
time (`statRes = none` models a raising `os.stat`; each step catches its
own errors). -/
def get_file_creation_date (statRes : Option StatInfo) (gitOut : Option (List Int))
    (now : Int) : Int :=
  let step1 : Option Int :=
    match statRes with
    | some st =>
      match st.birthtime with
      | some b => if 0 < b then some b else none
      | none => none
    | none => none
  match step1 with
  | some d => d
  | none =>
    match run_git_date gitOut with
    | some d => d
    | none =>
      match statRes with
      | some st => st.mtime
      | none => now

/-- Modelled from the spec: the ordered fallback chain of §4.2 ("birth time
if present and positive, else the oldest version-control addition date,
else the last-modified time, else the current system time"), written as a
first-success-wins chain to compare with `get_file_creation_date`. -/
def creation_date_chain_spec (statRes : Option StatInfo) (gitOut : Option (List Int))
    (now : Int) : Int :=
  match statRes with
  | some st =>
    match st.birthtime with
    | some b => if 0 < b then b else (run_git_date gitOut).getD st.mtime
    | none => (run_git_date gitOut).getD st.mtime
  | none => (run_git_date gitOut).getD now

/-- The target file's content in a state (empty for an unreadable file);
used to inspect transaction results at concrete inputs. -/
def contentOf (st : FileState) : List Char :=
  match st.target with
  | .ok c => c
  | .fail _ => []

/-- Concrete configuration used for evaluating the transaction at explicit
inputs: defaults, `overwrite` off. -/
def sampleArgs : Args :=
  ⟨chars "A", chars "1.0", chars "MIT License", chars "d", false, [], [],
    false, false, false, false⟩

/-- Concrete configuration with `overwrite` enabled. -/
def overwriteArgs : Args :=
  ⟨chars "A", chars "1.0", chars "MIT License", chars "d", false, [], [],
    false, false, true, false⟩

/-- A concrete file content that already carries exactly one of each
sentinel marker (a previously inserted header's bounds) above one code
line. -/
def headeredContent : List Char :=
  HEADER_MARKER_BEGIN ++ '\n' :: (HEADER_MARKER_END ++ chars "\nx\n")

/-! ## Properties of the LF splitting and joining primitives -/

theorem splitNl_ne_nil (s : List Char) : splitNl s ≠ [] := by
  cases s with
  | nil => simp [splitNl]
  | cons c cs =>
    simp only [splitNl]
    split
    · simp
    · cases h : splitNl cs <;> simp

theorem joinNl_splitNl (s : List Char) : joinNl (splitNl s) = s := by
  induction s with
  | nil => rfl
  | cons c cs ih =>
    by_cases hc : c = '\n'
    · subst hc
      simp only [splitNl, if_pos rfl]
      rcases h : splitNl cs with _ | ⟨h1, t1⟩
      · exact absurd h (splitNl_ne_nil cs)
      · rw [h] at ih
        simpa [joinNl] using ih
    · simp only [splitNl, if_neg hc]
      rcases h : splitNl cs with _ | ⟨h1, t1⟩
      · exact absurd h (splitNl_ne_nil cs)
      · rw [h] at ih
        cases t1 with
        | nil => simpa [joinNl] using ih
        | cons a b =>
          simp only [joinNl] at ih ⊢
          rw [List.cons_append, ih]

theorem joinNl_append_of_ne_nil (a b : List (List Char)) (ha : a ≠ []) (hb : b ≠ []) :
    joinNl (a ++ b) = joinNl a ++ '\n' :: joinNl b := by
  induction a with
  | nil => exact absurd rfl ha
  | cons x a' ih =>
    cases a' with
    | nil =>
      rcases b with _ | ⟨y, b'⟩
      · exact absurd rfl hb
      · simp [joinNl]
    | cons x2 a'' =>
      have h2 := ih (by simp)
      simp only [List.cons_append, joinNl, List.append_eq] at h2 ⊢
      rw [h2, List.append_assoc]
      simp

theorem splitNl_cons (c : Char) (cs : List Char) :
    splitNl (c :: cs) = if c = '\n' then [] :: splitNl cs
      else match splitNl cs with
        | [] => [[c]]
        | h :: t => (c :: h) :: t := rfl

theorem splitNl_eq_cons (s : List Char) : ∃ h t, splitNl s = h :: t := by
  rcases e : splitNl s with _ | ⟨h, t⟩
  · exact absurd e (splitNl_ne_nil s)
  · exact ⟨h, t, rfl⟩

theorem nl_not_mem_splitNl (s l : List Char) (hl : l ∈ splitNl s) : '\n' ∉ l := by
  induction s generalizing l with
  | nil =>
    simp only [splitNl, List.mem_singleton] at hl
    simp [hl]
  | cons c cs ih =>
    by_cases hc : c = '\n'
    · subst hc
      rw [splitNl_cons, if_pos rfl] at hl
      rcases List.mem_cons.mp hl with h | h
      · simp [h]
      · exact ih l h
    · obtain ⟨h1, t1, hs⟩ := splitNl_eq_cons cs
      rw [splitNl_cons, if_neg hc, hs] at hl
      rcases List.mem_cons.mp hl with h | h
      · subst h
        intro hmem
        rcases List.mem_cons.mp hmem with h | h
        · exact hc h.symm
        · exact ih h1 (by rw [hs]; exact List.mem_cons_self h1 t1) h
      · exact ih l (by rw [hs]; exact List.mem_cons_of_mem h1 h)

theorem splitNl_append_nl (a r : List Char) (ha : '\n' ∉ a) :
    splitNl (a ++ '\n' :: r) = a :: splitNl r := by
  induction a with
  | nil => simp [splitNl]
  | cons c a' ih =>
    have hc : c ≠ '\n' := fun h => ha (h ▸ List.mem_cons_self c a')
    have ha' : '\n' ∉ a' := fun h => ha (List.mem_cons_of_mem c h)
    rw [List.cons_append, splitNl_cons, if_neg hc, ih ha']

theorem splitNl_length_of_endsNl (s : List Char) (h : endsNl s = true) :
    2 ≤ (splitNl s).length := by
  induction s with
  | nil => simp [endsNl] at h
  | cons c cs ih =>
    cases cs with
    | nil =>
      simp only [endsNl, beq_iff_eq] at h
      simp only [List.getLast?_singleton, Option.some.injEq] at h
      subst h
      decide
    | cons c2 cs2 =>
      have h2 : endsNl (c2 :: cs2) = true := by
        unfold endsNl at h ⊢
        rwa [List.getLast?_cons_cons] at h
      have ihh := ih h2
      obtain ⟨h1, t1, hs⟩ := splitNl_eq_cons (c2 :: cs2)
      by_cases hc : c = '\n'
      · subst hc
        rw [splitNl_cons, if_pos rfl, List.length_cons]
        omega
      · rw [splitNl_cons, if_neg hc, hs]
        rw [hs] at ihh
        simp only [List.length_cons] at ihh ⊢
        omega

theorem splitNl_getLast_of_endsNl (s : List Char) (h : endsNl s = true) :
    (splitNl s).getLast? = some [] := by
  induction s with
  | nil => simp [endsNl] at h
  | cons c cs ih =>
    cases cs with
    | nil =>
      simp only [endsNl, beq_iff_eq] at h
      simp only [List.getLast?_singleton, Option.some.injEq] at h
      subst h
      rfl
    | cons c2 cs2 =>
      have h2 : endsNl (c2 :: cs2) = true := by
        unfold endsNl at h ⊢
        rwa [List.getLast?_cons_cons] at h
      have ihh := ih h2
      obtain ⟨h1, t1, hs⟩ := splitNl_eq_cons (c2 :: cs2)
      rw [hs] at ihh
      by_cases hc : c = '\n'
      · subst hc
        rw [splitNl_cons, if_pos rfl, hs, List.getLast?_cons_cons]
        exact ihh
      · rw [splitNl_cons, if_neg hc, hs]
        cases t1 with
        | nil =>
          have hlen := splitNl_length_of_endsNl (c2 :: cs2) h2
          rw [hs] at hlen
          simp at hlen
        | cons a b =>
          rw [List.getLast?_cons_cons] at ihh ⊢
          exact ihh

theorem splitNl_getLast_of_not_endsNl (s : List Char) (hne : s ≠ [])
    (h : endsNl s = false) (t : List Char) (ht : (splitNl s).getLast? = some t) :
    t ≠ [] := by
  induction s generalizing t with
  | nil => exact absurd rfl hne
  | cons c cs ih =>
    cases cs with
    | nil =>
      have hc : c ≠ '\n' := by
        simp only [endsNl, beq_iff_eq] at h
        simpa [List.getLast?_singleton] using h
      rw [splitNl_cons, if_neg hc] at ht
      simp only [splitNl, List.getLast?_singleton, Option.some.injEq] at ht
      rw [← ht]
      simp
    | cons c2 cs2 =>
      have h2 : endsNl (c2 :: cs2) = false := by
        unfold endsNl at h ⊢
        rwa [List.getLast?_cons_cons] at h
      obtain ⟨h1, t1, hs⟩ := splitNl_eq_cons (c2 :: cs2)
      by_cases hc : c = '\n'
      · subst hc
        rw [splitNl_cons, if_pos rfl, hs, List.getLast?_cons_cons] at ht
        exact ih (by simp) h2 t (hs ▸ ht)
      · rw [splitNl_cons, if_neg hc, hs] at ht
        cases t1 with
        | nil =>
          simp only [List.getLast?_singleton, Option.some.injEq] at ht
          have := ih (by simp) h2 h1 (by rw [hs]; rfl)
          rw [← ht]
          simp
        | cons a b =>
          rw [List.getLast?_cons_cons] at ht
          exact ih (by simp) h2 t (by rw [hs, List.getLast?_cons_cons]; exact ht)

theorem getLast?_drop_of_ne_nil {α : Type} (l : List α) (k : Nat) (h : l.drop k ≠ []) :
    (l.drop k).getLast? = l.getLast? := by
  conv_rhs => rw [← List.take_append_drop k l]
  rw [List.getLast?_append]
  rcases e : (l.drop k).getLast? with _ | a
  · exact absurd (List.getLast?_eq_none_iff.mp e) h
  · simp [Option.or]

theorem joinNl_cons_cons (a b : List Char) (t : List (List Char)) :
    joinNl (a :: b :: t) = a ++ '\n' :: joinNl (b :: t) := rfl

theorem joinNl_getLast (l : List (List Char)) (t : List Char)
    (hl : l.getLast? = some t) (ht : t ≠ []) : (joinNl l).getLast? = t.getLast? := by
  induction l with
  | nil => simp at hl
  | cons x l' ih =>
    cases l' with
    | nil =>
      simp only [List.getLast?_singleton, Option.some.injEq] at hl
      rw [joinNl, hl]
    | cons y l'' =>
      rw [List.getLast?_cons_cons] at hl
      have hj := ih hl
      obtain ⟨a, ha⟩ : ∃ a, t.getLast? = some a := by
        rcases e : t.getLast? with _ | a
        · exact absurd (List.getLast?_eq_none_iff.mp e) ht
        · exact ⟨a, rfl⟩
      have hja : (joinNl (y :: l'')).getLast? = some a := by rw [hj, ha]
      rcases e : joinNl (y :: l'') with _ | ⟨b, j'⟩
      · rw [e] at hja
        simp at hja
      · rw [e] at hja
        rw [joinNl_cons_cons, e, ha, List.getLast?_append, List.getLast?_cons_cons, hja]
        rfl

theorem splitlines_ne_nil_of_ne_nil (s : List Char) (h : s ≠ []) : splitlines s ≠ [] := by
  unfold splitlines
  rw [if_neg h]
  by_cases he : endsNl s
  · rw [if_pos he]
    have hlen := splitNl_length_of_endsNl s he
    intro hd
    have := congrArg List.length hd
    rw [List.length_dropLast] at this
    simp at this
    omega
  · rw [if_neg he]
    exact splitNl_ne_nil s

theorem nl_not_mem_splitlines (s l : List Char) (hl : l ∈ splitlines s) : '\n' ∉ l := by
  unfold splitlines at hl
  by_cases h : s = []
  · rw [if_pos h] at hl
    simp at hl
  · rw [if_neg h] at hl
    by_cases he : endsNl s
    · rw [if_pos he] at hl
      exact nl_not_mem_splitNl s l (List.dropLast_sublist _ |>.mem hl)
    · rw [if_neg he] at hl
      exact nl_not_mem_splitNl s l hl

/-- The inverse of `splitlines`: joining the lines with LF and restoring the
original trailing LF reconstructs the text. -/
theorem joinNl_splitlines (s : List Char) :
    joinNl (splitlines s) ++ (if endsNl s then ['\n'] else []) = s := by
  by_cases h : s = []
  · subst h
    rfl
  · unfold splitlines
    rw [if_neg h]
    by_cases he : endsNl s
    · rw [if_pos he, if_pos he]
      have hlast := splitNl_getLast_of_endsNl s he
      have hlen := splitNl_length_of_endsNl s he
      have hne : splitNl s ≠ [] := splitNl_ne_nil s
      have hgl : (splitNl s).getLast hne = [] := by
        have h2 := List.getLast?_eq_getLast (splitNl s) hne
        rw [hlast] at h2
        exact (Option.some_injective _ h2).symm
      have hsplit : (splitNl s).dropLast ++ [[]] = splitNl s := by
        rw [← hgl]
        exact List.dropLast_append_getLast hne
      have hdne : (splitNl s).dropLast ≠ [] := by
        intro hd
        have := congrArg List.length hd
        rw [List.length_dropLast] at this
        simp at this
        omega
      have hj : joinNl ((splitNl s).dropLast ++ [[]])
          = joinNl (splitNl s).dropLast ++ '\n' :: joinNl [[]] := by
        exact joinNl_append_of_ne_nil _ _ hdne (by simp)
      rw [hsplit] at hj
      have := joinNl_splitNl s
      rw [hj] at this
      simpa [joinNl] using this
    · rw [if_neg he, if_neg he]
      simpa using joinNl_splitNl s

theorem mem_of_getLast?_eq {α : Type} (l : List α) (a : α) (h : l.getLast? = some a) :
    a ∈ l := by
  have h1 : a ∈ l.getLast? := by rw [h]; rfl
  obtain ⟨hne, he⟩ := List.mem_getLast?_eq_getLast h1
  rw [he]
  exact List.getLast_mem hne

theorem endsNl_append_of_ne_nil (a b : List Char) (hb : b ≠ []) :
    endsNl (a ++ b) = endsNl b := by
  unfold endsNl
  rw [List.getLast?_append]
  rcases e : b.getLast? with _ | x
  · exact absurd (List.getLast?_eq_none_iff.mp e) hb
  · rfl

/-- Splitting the line list of `s` at any index that leaves a nonempty tail
and rejoining as the splice step does reconstructs `s` exactly. -/
theorem splice_reconstruct (s : List Char) (k : Nat)
    (h : (splitlines s).drop k ≠ []) :
    (joinNl ((splitlines s).take k) ++ (if 0 < k then ['\n'] else []))
      ++ (joinNl ((splitlines s).drop k) ++ (if endsNl s then ['\n'] else [])) = s := by
  rcases Nat.eq_zero_or_pos k with hk | hk
  · subst hk
    simp only [List.take_zero, List.drop_zero, joinNl, Nat.lt_irrefl, if_neg,
      List.nil_append, Nat.zero_lt_one]
    simpa using joinNl_splitlines s
  · have hlines : splitlines s ≠ [] := fun hl => h (by rw [hl]; simp)
    have htake : (splitlines s).take k ≠ [] := by
      intro hts
      have hlen := congrArg List.length hts
      rw [List.length_take] at hlen
      simp only [List.length_nil] at hlen
      rcases Nat.min_eq_zero_iff.mp hlen with h1 | h1
      · omega
      · exact hlines (List.length_eq_zero.mp h1)
    have hja := joinNl_append_of_ne_nil _ _ htake h
    rw [List.take_append_drop] at hja
    rw [if_pos hk]
    have hrt := joinNl_splitlines s
    rw [hja] at hrt
    have hassoc : (joinNl ((splitlines s).take k) ++ ['\n'])
        ++ (joinNl ((splitlines s).drop k) ++ (if endsNl s then ['\n'] else []))
        = (joinNl ((splitlines s).take k) ++ '\n' :: joinNl ((splitlines s).drop k))
          ++ (if endsNl s then ['\n'] else []) := by
      simp [List.append_assoc]
    rw [hassoc]
    exact hrt

/-- The tail the splice step appends after the header: it is nonempty and
carries exactly the original trailing-LF state, provided some original line
lies at or after the split index. -/
theorem splice_suffix_endsNl (s : List Char) (k : Nat)
    (h : (splitlines s).drop k ≠ []) :
    (joinNl ((splitlines s).drop k) ++ (if endsNl s then ['\n'] else [])) ≠ [] ∧
    endsNl (joinNl ((splitlines s).drop k) ++ (if endsNl s then ['\n'] else []))
      = endsNl s := by
  have hs : s ≠ [] := by
    intro he
    rw [he] at h
    exact h (by simp [splitlines])
  by_cases he : endsNl s
  · rw [if_pos he]
    constructor
    · simp
    · rw [he]
      unfold endsNl
      rw [List.getLast?_concat]
      rfl
  · rw [if_neg he, List.append_nil]
    have hsl : splitlines s = splitNl s := by
      unfold splitlines
      rw [if_neg hs, if_neg he]
    obtain ⟨t, ht⟩ : ∃ t, (splitNl s).getLast? = some t := by
      rcases e : (splitNl s).getLast? with _ | t
      · exact absurd (List.getLast?_eq_none_iff.mp e) (splitNl_ne_nil s)
      · exact ⟨t, rfl⟩
    have htne : t ≠ [] :=
      splitNl_getLast_of_not_endsNl s hs (Bool.not_eq_true _ ▸ he) t ht
    have hdrop : ((splitlines s).drop k).getLast? = some t := by
      rw [getLast?_drop_of_ne_nil _ k h, hsl, ht]
    have hjoin := joinNl_getLast _ t hdrop htne
    obtain ⟨a, ha⟩ : ∃ a, t.getLast? = some a := by
      rcases e : t.getLast? with _ | a
      · exact absurd (List.getLast?_eq_none_iff.mp e) htne
      · exact ⟨a, rfl⟩
    have hmem : a ∈ t := mem_of_getLast?_eq t a ha
    have htmem : t ∈ splitNl s := mem_of_getLast?_eq _ t ht
    have hanl : a ≠ '\n' := fun heq => nl_not_mem_splitNl s t htmem (heq ▸ hmem)
    constructor
    · intro hjn
      rw [hjn] at hjoin
      rw [ha] at hjoin
      simp at hjoin
    · have hend : endsNl (joinNl ((splitlines s).drop k)) = false := by
        unfold endsNl
        rw [hjoin, ha]
        rw [beq_eq_false_iff_ne]
        intro hx
        exact hanl (Option.some_injective _ hx)
      rw [Bool.not_eq_true] at he
      rw [he, hend]

/-! ## Substring occurrence and the sentinel markers -/

theorem containsSub_eq_true_iff (hay needle : List Char) :
    containsSub hay needle = true ↔ needle <:+: hay := by
  unfold containsSub
  rw [List.any_eq_true]
  constructor
  · rintro ⟨i, _, hp⟩
    rw [List.infix_iff_prefix_suffix]
    exact ⟨hay.drop i, List.isPrefixOf_iff_prefix.mp hp, List.drop_suffix i hay⟩
  · rintro ⟨s1, t1, hst⟩
    refine ⟨s1.length, ?_, ?_⟩
    · rw [List.mem_range]
      have : s1.length ≤ hay.length := by
        rw [← hst]
        simp only [List.length_append]
        omega
      omega
    · rw [List.isPrefixOf_iff_prefix, ← hst, List.append_assoc, List.drop_left]
      exact ⟨t1, rfl⟩

theorem infix_joinNl_of_mem (l : List (List Char)) (x : List Char) (hx : x ∈ l) :
    x <:+: joinNl l := by
  induction l with
  | nil => simp at hx
  | cons y l' ih =>
    rcases List.mem_cons.mp hx with h | h
    · subst h
      cases l' with
      | nil => exact List.infix_refl x
      | cons z l'' =>
        rw [joinNl_cons_cons]
        exact ⟨[], '\n' :: joinNl (z :: l''), by simp⟩
    · cases l' with
      | nil => simp at h
      | cons z l'' =>
        rw [joinNl_cons_cons]
        exact (ih h).trans ⟨y ++ ['\n'], [], by simp⟩

theorem infix_build_header_of_mem_core (file_name author created today version license
    description ext x : List Char)
    (hx : x ∈ header_core_lines file_name author created today version license description) :
    x <:+: build_header_text file_name author created today version license description ext := by
  unfold build_header_text
  set st := choose_comment_style ext with hst
  by_cases hsingle : st.single
  · rw [if_pos hsingle]
    have hmem : (st.start ++ chars " " ++ x) ∈
        (header_core_lines file_name author created today version license description).map
          (fun ln => st.start ++ chars " " ++ ln) :=
      List.mem_map_of_mem _ hx
    have h1 : x <:+: st.start ++ chars " " ++ x := ⟨st.start ++ chars " ", [], by simp⟩
    exact (h1.trans (infix_joinNl_of_mem _ _ hmem)).trans
      ((List.prefix_append _ _).isInfix)
  · rw [if_neg hsingle]
    have hmem : x ∈ (st.start :: header_core_lines file_name author created today version
        license description) ++ [st.stop] :=
      List.mem_append_left _ (List.mem_cons_of_mem _ hx)
    exact (infix_joinNl_of_mem _ _ hmem).trans ((List.prefix_append _ _).isInfix)

theorem marker_begin_infix_effective_header (path : List Char) (args : Args)
    (created today inferDesc : List Char) :
    HEADER_MARKER_BEGIN <:+: effective_header path args created today inferDesc := by
  unfold effective_header
  have hb := infix_build_header_of_mem_core (basename path) args.author created today
    args.version args.license
    (if args.auto_description || args.description == ([] : List Char)
        || args.description == chars "[Dosya açıklaması]" then inferDesc else args.description)
    (extLower path) HEADER_MARKER_BEGIN (by unfold header_core_lines; simp)
  by_cases hu : args.with_usage
  · rw [if_pos hu]
    exact hb.trans (List.suffix_append _ _).isInfix
  · rw [if_neg hu]
    exact hb

theorem marker_end_infix_effective_header (path : List Char) (args : Args)
    (created today inferDesc : List Char) :
    HEADER_MARKER_END <:+: effective_header path args created today inferDesc := by
  unfold effective_header
  have hb := infix_build_header_of_mem_core (basename path) args.author created today
    args.version args.license
    (if args.auto_description || args.description == ([] : List Char)
        || args.description == chars "[Dosya açıklaması]" then inferDesc else args.description)
    (extLower path) HEADER_MARKER_END (by unfold header_core_lines; simp)
  by_cases hu : args.with_usage
  · rw [if_pos hu]
    exact hb.trans (List.suffix_append _ _).isInfix
  · rw [if_neg hu]
    exact hb

theorem already_has_header_eq_true (c : List Char)
    (hb : HEADER_MARKER_BEGIN <:+: c) (he : HEADER_MARKER_END <:+: c) :
    already_has_header c = true := by
  unfold already_has_header
  rw [Bool.and_eq_true, containsSub_eq_true_iff, containsSub_eq_true_iff]
  exact ⟨hb, he⟩

theorem already_has_header_compute (content hdr ext : List Char)
    (hb : HEADER_MARKER_BEGIN <:+: hdr) (he : HEADER_MARKER_END <:+: hdr) :
    already_has_header (compute_new_content content hdr ext) = true := by
  apply already_has_header_eq_true
  · unfold compute_new_content
    exact hb.trans ⟨joinNl ((splitlines content).take (insert_offset (splitlines content) ext))
      ++ (if 0 < insert_offset (splitlines content) ext then ['\n'] else []),
      joinNl ((splitlines content).drop (insert_offset (splitlines content) ext))
        ++ (if endsNl content then ['\n'] else []), by simp [List.append_assoc]⟩
  · unfold compute_new_content
    exact he.trans ⟨joinNl ((splitlines content).take (insert_offset (splitlines content) ext))
      ++ (if 0 < insert_offset (splitlines content) ext then ['\n'] else []),
      joinNl ((splitlines content).drop (insert_offset (splitlines content) ext))
        ++ (if endsNl content then ['\n'] else []), by simp [List.append_assoc]⟩

/-! ## The insertion planner and the first line -/

theorem insert_offset_shebang_pos (lines : List (List Char)) (ext l0 : List Char)
    (rest : List (List Char)) (hl : lines = l0 :: rest)
    (hsb : (chars "#!").isPrefixOf l0 = true) : 1 ≤ insert_offset lines ext := by
  subst hl
  unfold insert_offset detect_shebang_and_spdx
  simp only [hsb, if_pos]
  exact le_trans (by omega) (le_max_right _ _)

theorem compute_new_content_eq (s hdr ext : List Char) :
    compute_new_content s hdr ext
      = joinNl ((splitlines s).take (insert_offset (splitlines s) ext))
        ++ (if 0 < insert_offset (splitlines s) ext then ['\n'] else [])
        ++ hdr
        ++ (joinNl ((splitlines s).drop (insert_offset (splitlines s) ext))
            ++ (if endsNl s then ['\n'] else [])) := rfl

theorem head_splitlines_compute (s hdr ext l0 : List Char)
    (h0 : (splitlines s).head? = some l0)
    (hsb : (chars "#!").isPrefixOf l0 = true) :
    (splitlines (compute_new_content s hdr ext)).head? = some l0 := by
  obtain ⟨rest, hl⟩ : ∃ rest, splitlines s = l0 :: rest := by
    rcases e : splitlines s with _ | ⟨a, r⟩
    · rw [e] at h0
      simp at h0
    · rw [e] at h0
      simp only [List.head?_cons, Option.some.injEq] at h0
      exact ⟨r, by rw [h0]⟩
  have hk := insert_offset_shebang_pos _ ext l0 rest hl hsb
  obtain ⟨k, hg⟩ : ∃ k, insert_offset (splitlines s) ext = k := ⟨_, rfl⟩
  rw [hg] at hk
  have hnl0 : '\n' ∉ l0 :=
    nl_not_mem_splitlines s l0 (by rw [hl]; exact List.mem_cons_self _ _)
  have htake : (splitlines s).take k = l0 :: rest.take (k - 1) := by
    rw [hl]
    cases k with
    | zero => omega
    | succ k' => simp
  obtain ⟨j, hj⟩ : ∃ j, joinNl (l0 :: rest.take (k - 1)) ++ ['\n'] = l0 ++ '\n' :: j := by
    cases e2 : rest.take (k - 1) with
    | nil => exact ⟨[], by simp [joinNl]⟩
    | cons a r2 => exact ⟨joinNl (a :: r2) ++ ['\n'], by rw [joinNl_cons_cons]; simp⟩
  obtain ⟨tail, htail⟩ : ∃ tail, compute_new_content s hdr ext = l0 ++ '\n' :: tail := by
    refine ⟨j ++ (hdr ++ (joinNl ((splitlines s).drop k)
      ++ (if endsNl s then ['\n'] else []))), ?_⟩
    rw [compute_new_content_eq, hg, htake, if_pos (show 0 < k by omega), hj]
    simp [List.append_assoc]
  rw [htail]
  unfold splitlines
  have hne : l0 ++ '\n' :: tail ≠ [] := by simp
  rw [if_neg hne]
  by_cases hend : endsNl (l0 ++ '\n' :: tail)
  · rw [if_pos hend, splitNl_append_nl _ _ hnl0]
    obtain ⟨h1, t1, hs⟩ := splitNl_eq_cons tail
    rw [hs, List.dropLast_cons₂]
    rfl
  · rw [if_neg hend, splitNl_append_nl _ _ hnl0]
    rfl

/-! ## Equations for the transaction's paths -/

theorem process_file_success_run (path : List Char) (args : Args)
    (created today inferDesc : List Char) (st : FileState) (faults : Faults) (c : List Char)
    (hskip : should_skip path args.include_exts args.exclude = false)
    (hread : st.target = .ok c)
    (hgo : (already_has_header c && !args.overwrite) = false)
    (hdry : args.dry_run = false)
    (hfb : (!args.no_backup && st.bak.isNone) = false ∨ faults.bakWrite = none)
    (hfw : faults.targetWrite = none) :
    process_file path args created today inferDesc st faults
      = ((if already_has_header c then Status.UPDATED else Status.ADDED),
         { target := ReadResult.ok (compute_new_content c
             (effective_header path args created today inferDesc) (extLower path)),
           bak := if !args.no_backup && st.bak.isNone then some c else st.bak }) := by
  rcases hfb with hb | hfb
  · simp only [process_file, hskip, hread, hgo, hdry, hfw, hb]
    simp
  · cases hb : (!args.no_backup && st.bak.isNone) with
    | false =>
      simp only [process_file, hskip, hread, hgo, hdry, hfb, hfw, hb]
      simp
    | true =>
      simp only [process_file, hskip, hread, hgo, hdry, hfb, hfw, hb]
      simp

theorem process_file_already (path : List Char) (args : Args)
    (created today inferDesc : List Char) (st : FileState) (faults : Faults) (c : List Char)
    (hskip : should_skip path args.include_exts args.exclude = false)
    (hread : st.target = .ok c)
    (hal : (already_has_header c && !args.overwrite) = true) :
    process_file path args created today inferDesc st faults = (.ALREADY, st) := by
  simp only [process_file, hskip, hread, hal]
  simp

theorem process_file_skip (path : List Char) (args : Args)
    (created today inferDesc : List Char) (st : FileState) (faults : Faults)
    (hskip : should_skip path args.include_exts args.exclude = true) :
    process_file path args created today inferDesc st faults = (.SKIP_FILTER, st) := by
  simp only [process_file, hskip]
  simp

theorem process_file_read_fail (path : List Char) (args : Args)
    (created today inferDesc : List Char) (st : FileState) (faults : Faults) (e : List Char)
    (hskip : should_skip path args.include_exts args.exclude = false)
    (hread : st.target = .fail e) :
    process_file path args created today inferDesc st faults = (.READ_FAIL e, st) := by
  simp only [process_file, hskip, hread]
  simp

theorem process_file_dry (path : List Char) (args : Args)
    (created today inferDesc : List Char) (st : FileState) (faults : Faults) (c : List Char)
    (hskip : should_skip path args.include_exts args.exclude = false)
    (hread : st.target = .ok c)
    (hgo : (already_has_header c && !args.overwrite) = false)
    (hdry : args.dry_run = true) :
    process_file path args created today inferDesc st faults = (.DRY_RUN, st) := by
  simp only [process_file, hskip, hread, hgo, hdry]
  simp

theorem process_file_backup_fail (path : List Char) (args : Args)
    (created today inferDesc : List Char) (st : FileState) (faults : Faults) (c e : List Char)
    (hskip : should_skip path args.include_exts args.exclude = false)
    (hread : st.target = .ok c)
    (hgo : (already_has_header c && !args.overwrite) = false)
    (hdry : args.dry_run = false)
    (hattempt : (!args.no_backup && st.bak.isNone) = true)
    (hbf : faults.bakWrite = some e) :
    process_file path args created today inferDesc st faults = (.BACKUP_FAIL e, st) := by
  simp only [process_file, hskip, hread, hgo, hdry, hattempt, hbf]
  simp

theorem process_file_write_fail (path : List Char) (args : Args)
    (created today inferDesc : List Char) (st : FileState) (faults : Faults) (c e : List Char)
    (hskip : should_skip path args.include_exts args.exclude = false)
    (hread : st.target = .ok c)
    (hgo : (already_has_header c && !args.overwrite) = false)
    (hdry : args.dry_run = false)
    (hfb : (!args.no_backup && st.bak.isNone) = false ∨ faults.bakWrite = none)
    (hfw : faults.targetWrite = some e) :
    process_file path args created today inferDesc st faults
      = (.WRITE_FAIL e,
         { target := st.target,
           bak := if !args.no_backup && st.bak.isNone then some c else st.bak }) := by
  rcases hfb with hb | hfb
  · simp only [process_file, hskip, hread, hgo, hdry, hfw, hb]
    simp
    rw [← hread]
  · cases hb : (!args.no_backup && st.bak.isNone) with
    | false =>
      simp only [process_file, hskip, hread, hgo, hdry, hfb, hfw, hb]
      simp
      rw [← hread]
    | true =>
      simp only [process_file, hskip, hread, hgo, hdry, hfb, hfw, hb]
      simp [hread]

theorem should_skip_false_of_not (path : List Char) (a b : List (List Char))
    (h : ¬should_skip path a b = true) : should_skip path a b = false := by
  simpa using h

theorem go_false_of_not (c : List Char) (args : Args)
    (h : ¬(already_has_header c && !args.overwrite) = true) :
    (already_has_header c && !args.overwrite) = false := by
  simpa using h

theorem process_file_bak_preserved (path : List Char) (args : Args)
    (created today inferDesc : List Char) (st : FileState) (faults : Faults) (b : List Char)
    (hb : st.bak = some b) :
    ((process_file path args created today inferDesc st faults).2).bak = some b := by
  have hnone : st.bak.isNone = false := by rw [hb]; rfl
  have hattempt : (!args.no_backup && st.bak.isNone) = false := by
    rw [hnone, Bool.and_false]
  by_cases h1 : should_skip path args.include_exts args.exclude = true
  · rw [process_file_skip path args created today inferDesc st faults h1]
    exact hb
  · have h1' := should_skip_false_of_not _ _ _ h1
    cases hrt : st.target with
    | fail e =>
      rw [process_file_read_fail path args created today inferDesc st faults e h1' hrt]
      exact hb
    | ok c =>
      by_cases h2 : (already_has_header c && !args.overwrite) = true
      · rw [process_file_already path args created today inferDesc st faults c h1' hrt h2]
        exact hb
      · have h2' := go_false_of_not _ _ h2
        cases hd : args.dry_run with
        | true =>
          rw [process_file_dry path args created today inferDesc st faults c h1' hrt h2' hd]
          exact hb
        | false =>
          cases hfw : faults.targetWrite with
          | some e =>
            rw [process_file_write_fail path args created today inferDesc st faults c e
              h1' hrt h2' hd (Or.inl hattempt) hfw]
            simp [hattempt, hb]
          | none =>
            rw [process_file_success_run path args created today inferDesc st faults c
              h1' hrt h2' hd (Or.inl hattempt) hfw]
            simp [hattempt, hb]

theorem process_file_dry_state (path : List Char) (args : Args)
    (created today inferDesc : List Char) (st : FileState) (faults : Faults)
    (hdry : args.dry_run = true) :
    (process_file path args created today inferDesc st faults).2 = st := by
  by_cases h1 : should_skip path args.include_exts args.exclude = true
  · rw [process_file_skip path args created today inferDesc st faults h1]
  · have h1' := should_skip_false_of_not _ _ _ h1
    cases hrt : st.target with
    | fail e =>
      rw [process_file_read_fail path args created today inferDesc st faults e h1' hrt]
    | ok c =>
      by_cases h2 : (already_has_header c && !args.overwrite) = true
      · rw [process_file_already path args created today inferDesc st faults c h1' hrt h2]
      · have h2' := go_false_of_not _ _ h2
        rw [process_file_dry path args created today inferDesc st faults c h1' hrt h2' hdry]

theorem process_file_target_cases (path : List Char) (args : Args)
    (created today inferDesc : List Char) (st : FileState) (faults : Faults) :
    ((process_file path args created today inferDesc st faults).2).target = st.target
    ∨ ((process_file path args created today inferDesc st faults).1 = .ADDED
       ∨ (process_file path args created today inferDesc st faults).1 = .UPDATED) := by
  by_cases h1 : should_skip path args.include_exts args.exclude = true
  · rw [process_file_skip path args created today inferDesc st faults h1]
    left
    rfl
  · have h1' := should_skip_false_of_not _ _ _ h1
    cases hrt : st.target with
    | fail e =>
      rw [process_file_read_fail path args created today inferDesc st faults e h1' hrt]
      left
      exact hrt
    | ok c =>
      by_cases h2 : (already_has_header c && !args.overwrite) = true
      · rw [process_file_already path args created today inferDesc st faults c h1' hrt h2]
        left
        exact hrt
      · have h2' := go_false_of_not _ _ h2
        cases hd : args.dry_run with
        | true =>
          rw [process_file_dry path args created today inferDesc st faults c h1' hrt h2' hd]
          left
          exact hrt
        | false =>
          cases hab : (!args.no_backup && st.bak.isNone) with
          | true =>
            cases hfb : faults.bakWrite with
            | some e =>
              rw [process_file_backup_fail path args created today inferDesc st faults c e
                h1' hrt h2' hd hab hfb]
              left
              exact hrt
            | none =>
              cases hfw : faults.targetWrite with
              | some e =>
                rw [process_file_write_fail path args created today inferDesc st faults c e
                  h1' hrt h2' hd (Or.inr hfb) hfw]
                left
                exact hrt
              | none =>
                rw [process_file_success_run path args created today inferDesc st faults c
                  h1' hrt h2' hd (Or.inr hfb) hfw]
                right
                cases already_has_header c <;> simp
          | false =>
            cases hfw : faults.targetWrite with
            | some e =>
              rw [process_file_write_fail path args created today inferDesc st faults c e
                h1' hrt h2' hd (Or.inl hab) hfw]
              left
              exact hrt
            | none =>
              rw [process_file_success_run path args created today inferDesc st faults c
                h1' hrt h2' hd (Or.inl hab) hfw]
              right
              cases already_has_header c <;> simp

/-! ## Claim theorems -/

/-- **C5.** The creation-date resolver never fails (it is a total function
of the stat result, the git-log output and the clock) and follows the
ordered fallback chain — birth time if present and positive, else the
oldest version-control addition date, else the last-modified time, else
the current time; in particular, with no birth-time attribute and no
version-control history the result is exactly the file's mtime, no earlier
step's failure propagating. -/
theorem creation_date_follows_chain (statRes : Option StatInfo)
    (gitOut : Option (List Int)) (now : Int) :
    get_file_creation_date statRes gitOut now = creation_date_chain_spec statRes gitOut now
    ∧ (∀ m : Int, statRes = some ⟨none, m⟩ → run_git_date gitOut = none →
        get_file_creation_date statRes gitOut now = m) := by
  constructor
  · unfold get_file_creation_date creation_date_chain_spec
    rcases statRes with _ | ⟨bt, m⟩
    · cases run_git_date gitOut <;> rfl
    · rcases bt with _ | b
      · cases run_git_date gitOut <;> rfl
      · by_cases hb : (0 : Int) < b
        · simp only [if_pos hb]
        · simp only [if_neg hb]
          cases run_git_date gitOut <;> rfl
  · intro m hs hg
    subst hs
    unfold get_file_creation_date
    rw [hg]

/-- Witness for C5 at a concrete input: stat succeeds without a birth-time
attribute, git reports no history, so the resolver returns the mtime. -/
theorem creation_date_follows_chain_witness :
    get_file_creation_date (some ⟨none, 5⟩) (some []) 9
      = creation_date_chain_spec (some ⟨none, 5⟩) (some []) 9
    ∧ get_file_creation_date (some ⟨none, 5⟩) (some []) 9 = 5 :=
  ⟨(creation_date_follows_chain (some ⟨none, 5⟩) (some []) 9).1,
   (creation_date_follows_chain (some ⟨none, 5⟩) (some []) 9).2 5 rfl rfl⟩

theorem list_any_congr {α : Type} (l : List α) (f g : α → Bool)
    (h : ∀ x ∈ l, f x = g x) : l.any f = l.any g := by
  induction l with
  | nil => rfl
  | cons x l' ih =>
    simp only [List.any_cons]
    rw [h x (List.mem_cons_self x l'), ih (fun y hy => h y (List.mem_cons_of_mem x hy))]

/-- **C10.** The extension is lowercased before every use: two paths whose
raw extensions agree up to case (and which the exclude patterns do not
tell apart) get the same skip-filter decision and the same comment style;
e.g. a `.PY` file is filtered and styled exactly like a `.py` file. -/
theorem ext_lowercased_before_use (p q : List Char) (inc excl : List (List Char))
    (hext : lowerChars (splitext q).2 = lowerChars (splitext p).2)
    (hexcl : ∀ pat ∈ excl, containsSub p pat = containsSub q pat) :
    should_skip p inc excl = should_skip q inc excl
    ∧ choose_comment_style (extLower p) = choose_comment_style (extLower q) := by
  have he : extLower q = extLower p := by
    unfold extLower
    exact hext
  constructor
  · unfold should_skip
    rw [he]
    have hany : excl.any (fun pat => !pat.isEmpty && containsSub p pat)
        = excl.any (fun pat => !pat.isEmpty && containsSub q pat) := by
      apply list_any_congr
      intro pat hpat
      rw [hexcl pat hpat]
    rw [hany]
  · rw [he]

/-- Witness for C10: `a.PY` and `a.py` under the include-list `[.py]`. -/
theorem ext_lowercased_before_use_witness :
    should_skip (chars "a.PY") [chars ".py"] [] = should_skip (chars "a.py") [chars ".py"] []
    ∧ choose_comment_style (extLower (chars "a.PY"))
      = choose_comment_style (extLower (chars "a.py")) :=
  ext_lowercased_before_use (chars "a.PY") (chars "a.py") [chars ".py"] []
    (by decide) (by simp)

/-- **C6.** The insertion offset equals the maximum of the shebang push
(1 when the first line starts with `#!`, else 0) and the license-identifier
push (only for `.sol`: one past the first of the first 10 lines containing
the SPDX token, else 0); consequently a shebang first line is still the
first line after insertion. -/
theorem insert_offset_is_max_of_pushes (content hdr ext : List Char) :
    insert_offset (splitlines content) ext
      = max (match (splitlines content).head? with
             | some l0 => if (chars "#!").isPrefixOf l0 then 1 else 0
             | none => 0)
            (if ext = chars ".sol" then
               match ((splitlines content).take 10).findIdx?
                   (fun ln => containsSub ln SPDX_TOKEN) with
               | some i => i + 1
               | none => 0
             else 0)
    ∧ (∀ l0 : List Char, (splitlines content).head? = some l0 →
        (chars "#!").isPrefixOf l0 = true →
        (splitlines (compute_new_content content hdr ext)).head? = some l0) := by
  constructor
  · unfold insert_offset detect_shebang_and_spdx
    by_cases hext : ext = chars ".sol"
    · rw [if_pos hext, if_pos hext]
      rcases hl : splitlines content with _ | ⟨l0, rest⟩
      · simp
      · cases hsb : (chars "#!").isPrefixOf l0 with
        | true =>
          simp only [hsb, if_pos, List.head?_cons]
          cases hf : (((l0 :: rest).take 10).findIdx? (fun ln => containsSub ln SPDX_TOKEN)) with
          | some i => simp [Nat.max_comm]
          | none => simp
        | false =>
          simp only [hsb, List.head?_cons, Bool.false_eq_true, if_false]
          cases hf : (((l0 :: rest).take 10).findIdx? (fun ln => containsSub ln SPDX_TOKEN)) with
          | some i => simp
          | none => simp
    · rw [if_neg hext, if_neg hext]
      rcases hl : splitlines content with _ | ⟨l0, rest⟩
      · simp
      · cases hsb : (chars "#!").isPrefixOf l0 with
        | true => simp [hsb]
        | false => simp [hsb]
  · intro l0 h0 hsb
    exact head_splitlines_compute content hdr ext l0 h0 hsb

/-- Witness for C6: a shebang script stays shebang-first after insertion. -/
theorem insert_offset_is_max_of_pushes_witness :
    (splitlines (compute_new_content (chars "#!/usr/bin/env x\nbody\n")
        (chars "H\n\n") (chars ".py"))).head? = some (chars "#!/usr/bin/env x") :=
  (insert_offset_is_max_of_pushes (chars "#!/usr/bin/env x\nbody\n")
      (chars "H\n\n") (chars ".py")).2
    (chars "#!/usr/bin/env x") (by decide) (by decide)

/-- **C3 (amended).** For every real insertion in which at least one
original line lies at or after the insertion offset, the spliced output is
exactly: the original content up to the offset, the header block, and the
rest of the original content unchanged — and the output has a trailing
newline iff the original content had one. -/
theorem splice_preserves_content (content hdr ext : List Char)
    (h : (splitlines content).drop (insert_offset (splitlines content) ext) ≠ []) :
    compute_new_content content hdr ext
      = (joinNl ((splitlines content).take (insert_offset (splitlines content) ext))
          ++ (if 0 < insert_offset (splitlines content) ext then ['\n'] else []))
        ++ hdr
        ++ (joinNl ((splitlines content).drop (insert_offset (splitlines content) ext))
            ++ (if endsNl content then ['\n'] else []))
    ∧ (joinNl ((splitlines content).take (insert_offset (splitlines content) ext))
        ++ (if 0 < insert_offset (splitlines content) ext then ['\n'] else []))
      ++ (joinNl ((splitlines content).drop (insert_offset (splitlines content) ext))
          ++ (if endsNl content then ['\n'] else [])) = content
    ∧ endsNl (compute_new_content content hdr ext) = endsNl content := by
  refine ⟨?_, splice_reconstruct content _ h, ?_⟩
  · rw [compute_new_content_eq]
  · obtain ⟨hne, heq⟩ := splice_suffix_endsNl content (insert_offset (splitlines content) ext) h
    rw [compute_new_content_eq, endsNl_append_of_ne_nil _ _ hne]
    exact heq

/-- Witness for the amended C3 at a concrete input. -/
theorem splice_preserves_content_witness :
    endsNl (compute_new_content (chars "a\nb\n") (chars "H\n\n") (chars ".py"))
      = endsNl (chars "a\nb\n") :=
  (splice_preserves_content (chars "a\nb\n") (chars "H\n\n") (chars ".py") (by decide)).2.2

/-- Counterexample to C3 as stated: on the empty file (a real, successful
`ADDED` insertion) the output ends with the header's trailing newline even
though the original content had no trailing newline, so the
"trailing newline iff the original had one" part fails. -/
theorem splice_trailing_newline_counterexample :
    (process_file (chars "m.py") sampleArgs (chars "01.01.2025") (chars "02.01.2025")
        (chars "d") ⟨.ok [], none⟩ ⟨none, none⟩).1 = .ADDED
    ∧ endsNl (contentOf (process_file (chars "m.py") sampleArgs (chars "01.01.2025")
        (chars "02.01.2025") (chars "d") ⟨.ok [], none⟩ ⟨none, none⟩).2) = true
    ∧ endsNl [] = false := by
  refine ⟨by decide, by decide, by decide⟩

/-- **C2.** For a file the skip filter passes, with overwrite disabled,
that is readable, carries no header yet, and whose transaction is not a
dry run and suffers no I/O fault: the first run returns `ADDED`, the
second run (whatever dates, description, or faults it sees) returns
`ALREADY`, and leaves the filesystem slice exactly as the first run left
it — no write happens. -/
theorem transaction_idempotent (path : List Char) (args : Args)
    (created today inferDesc created2 today2 inferDesc2 : List Char)
    (st : FileState) (faults faults2 : Faults) (c : List Char)
    (hskip : should_skip path args.include_exts args.exclude = false)
    (hread : st.target = .ok c)
    (hno : already_has_header c = false)
    (how : args.overwrite = false)
    (hdry : args.dry_run = false)
    (hfb : faults.bakWrite = none)
    (hfw : faults.targetWrite = none) :
    (process_file path args created today inferDesc st faults).1 = .ADDED
    ∧ (process_file path args created2 today2 inferDesc2
        (process_file path args created today inferDesc st faults).2 faults2).1 = .ALREADY
    ∧ (process_file path args created2 today2 inferDesc2
        (process_file path args created today inferDesc st faults).2 faults2).2
      = (process_file path args created today inferDesc st faults).2 := by
  have hgo : (already_has_header c && !args.overwrite) = false := by
    rw [hno]
    rfl
  have h1 := process_file_success_run path args created today inferDesc st faults c
    hskip hread hgo hdry (Or.inr hfb) hfw
  have hs1 : (process_file path args created today inferDesc st faults).1 = .ADDED := by
    rw [h1, hno]
    rfl
  have hst1 : ((process_file path args created today inferDesc st faults).2).target
      = .ok (compute_new_content c (effective_header path args created today inferDesc)
              (extLower path)) := by
    rw [h1]
  have hal : already_has_header (compute_new_content c
      (effective_header path args created today inferDesc) (extLower path)) = true :=
    already_has_header_compute c _ _
      (marker_begin_infix_effective_header path args created today inferDesc)
      (marker_end_infix_effective_header path args created today inferDesc)
  have h2 := process_file_already path args created2 today2 inferDesc2
    (process_file path args created today inferDesc st faults).2 faults2 _ hskip hst1
    (by rw [hal, how]; rfl)
  exact ⟨hs1, by rw [h2], by rw [h2]⟩

/-- Witness for C2: a fresh one-line Python file, processed twice. -/
theorem transaction_idempotent_witness :
    (process_file (chars "m.py") sampleArgs (chars "01.01.2025") (chars "02.01.2025")
        (chars "d") ⟨.ok (chars "x = 1\n"), none⟩ ⟨none, none⟩).1 = .ADDED
    ∧ (process_file (chars "m.py") sampleArgs (chars "03.01.2025") (chars "04.01.2025")
        (chars "d2") (process_file (chars "m.py") sampleArgs (chars "01.01.2025")
          (chars "02.01.2025") (chars "d") ⟨.ok (chars "x = 1\n"), none⟩
          ⟨none, none⟩).2 ⟨none, none⟩).1 = .ALREADY
    ∧ (process_file (chars "m.py") sampleArgs (chars "03.01.2025") (chars "04.01.2025")
        (chars "d2") (process_file (chars "m.py") sampleArgs (chars "01.01.2025")
          (chars "02.01.2025") (chars "d") ⟨.ok (chars "x = 1\n"), none⟩
          ⟨none, none⟩).2 ⟨none, none⟩).2
      = (process_file (chars "m.py") sampleArgs (chars "01.01.2025") (chars "02.01.2025")
          (chars "d") ⟨.ok (chars "x = 1\n"), none⟩ ⟨none, none⟩).2 :=
  transaction_idempotent (chars "m.py") sampleArgs (chars "01.01.2025") (chars "02.01.2025")
    (chars "d") (chars "03.01.2025") (chars "04.01.2025") (chars "d2")
    ⟨.ok (chars "x = 1\n"), none⟩ ⟨none, none⟩ ⟨none, none⟩ (chars "x = 1\n")
    (by decide) rfl (by decide) rfl rfl rfl rfl

/-- **C4.** With backups enabled, a `.bak` that exists is never rewritten
by any run; and across two successive overwrite-enabled, fault-free runs
on a readable file with no pre-existing `.bak`, exactly one backup is
created — after both runs the `.bak` holds the original pre-header
content, never the intermediate headered content (the second run is a real
`UPDATED` write that leaves the backup alone). -/
theorem backup_written_once (path : List Char) (args : Args)
    (created today inferDesc created2 today2 inferDesc2 : List Char)
    (st : FileState) (faults : Faults) (c : List Char)
    (hskip : should_skip path args.include_exts args.exclude = false)
    (hread : st.target = .ok c)
    (hbak : st.bak = none)
    (how : args.overwrite = true)
    (hnb : args.no_backup = false)
    (hdry : args.dry_run = false)
    (hfb : faults.bakWrite = none)
    (hfw : faults.targetWrite = none) :
    (∀ (st2 : FileState) (b : List Char), st2.bak = some b →
        ((process_file path args created2 today2 inferDesc2 st2 faults).2).bak = some b)
    ∧ ((process_file path args created today inferDesc st faults).2).bak = some c
    ∧ (process_file path args created2 today2 inferDesc2
        (process_file path args created today inferDesc st faults).2 faults).1 = .UPDATED
    ∧ ((process_file path args created2 today2 inferDesc2
        (process_file path args created today inferDesc st faults).2 faults).2).bak
      = some c := by
  have hgo : ∀ d : List Char, (already_has_header d && !args.overwrite) = false := by
    intro d
    rw [how]
    simp
  have h1 := process_file_success_run path args created today inferDesc st faults c
    hskip hread (hgo c) hdry (Or.inr hfb) hfw
  have hbak1 : ((process_file path args created today inferDesc st faults).2).bak
      = some c := by
    rw [h1]
    simp [hnb, hbak]
  have hst1 : ((process_file path args created today inferDesc st faults).2).target
      = .ok (compute_new_content c (effective_header path args created today inferDesc)
              (extLower path)) := by
    rw [h1]
  have hal : already_has_header (compute_new_content c
      (effective_header path args created today inferDesc) (extLower path)) = true :=
    already_has_header_compute c _ _
      (marker_begin_infix_effective_header path args created today inferDesc)
      (marker_end_infix_effective_header path args created today inferDesc)
  have hattempt2 : (!args.no_backup
      && ((process_file path args created today inferDesc st faults).2).bak.isNone)
      = false := by
    rw [hbak1]
    simp
  have h2 := process_file_success_run path args created2 today2 inferDesc2
    (process_file path args created today inferDesc st faults).2 faults _ hskip hst1
    (hgo _) hdry (Or.inl hattempt2) hfw
  refine ⟨?_, hbak1, ?_, ?_⟩
  · intro st2 b hb
    exact process_file_bak_preserved path args created2 today2 inferDesc2 st2 faults b hb
  · rw [h2, hal]
    rfl
  · rw [h2]
    simp only [hattempt2]
    simp [hbak1]

/-- Witness for C4: two overwrite runs on a fresh one-line file; the
backup still holds the original line afterwards. -/
theorem backup_written_once_witness :
    ((process_file (chars "m.py") overwriteArgs (chars "01.01.2025") (chars "02.01.2025")
        (chars "d") ⟨.ok (chars "x = 1\n"), none⟩ ⟨none, none⟩).2).bak
      = some (chars "x = 1\n")
    ∧ ((process_file (chars "m.py") overwriteArgs (chars "03.01.2025") (chars "04.01.2025")
        (chars "d2") (process_file (chars "m.py") overwriteArgs (chars "01.01.2025")
          (chars "02.01.2025") (chars "d") ⟨.ok (chars "x = 1\n"), none⟩
          ⟨none, none⟩).2 ⟨none, none⟩).2).bak = some (chars "x = 1\n") :=
  ⟨(backup_written_once (chars "m.py") overwriteArgs (chars "01.01.2025") (chars "02.01.2025")
      (chars "d") (chars "03.01.2025") (chars "04.01.2025") (chars "d2")
      ⟨.ok (chars "x = 1\n"), none⟩ ⟨none, none⟩ (chars "x = 1\n")
      (by decide) rfl rfl rfl rfl rfl rfl rfl).2.1,
   (backup_written_once (chars "m.py") overwriteArgs (chars "01.01.2025") (chars "02.01.2025")
      (chars "d") (chars "03.01.2025") (chars "04.01.2025") (chars "d2")
      ⟨.ok (chars "x = 1\n"), none⟩ ⟨none, none⟩ (chars "x = 1\n")
      (by decide) rfl rfl rfl rfl rfl rfl rfl).2.2.2⟩

/-- **C7.** With dry-run enabled the transaction never mutates the
filesystem slice (whatever path the run takes), and whenever the would-
write path is reached — not filtered, readable, and not short-circuited by
an existing header — the returned status is exactly `DRY_RUN`. -/
theorem dry_run_pure (path : List Char) (args : Args)
    (created today inferDesc : List Char) (st : FileState) (faults : Faults)
    (hdry : args.dry_run = true) :
    (process_file path args created today inferDesc st faults).2 = st
    ∧ (∀ c : List Char,
        should_skip path args.include_exts args.exclude = false →
        st.target = .ok c →
        (already_has_header c && !args.overwrite) = false →
        (process_file path args created today inferDesc st faults).1 = .DRY_RUN) := by
  refine ⟨process_file_dry_state path args created today inferDesc st faults hdry, ?_⟩
  intro c h1 h2 h3
  rw [process_file_dry path args created today inferDesc st faults c h1 h2 h3 hdry]

/-- Witness for C7 at a concrete input. -/
theorem dry_run_pure_witness :
    (process_file (chars "m.py")
        ⟨chars "A", chars "1.0", chars "MIT License", chars "d", false, [], [],
          true, false, false, false⟩
        (chars "01.01.2025") (chars "02.01.2025") (chars "d")
        ⟨.ok (chars "x = 1\n"), none⟩ ⟨none, none⟩).2 = ⟨.ok (chars "x = 1\n"), none⟩
    ∧ (process_file (chars "m.py")
        ⟨chars "A", chars "1.0", chars "MIT License", chars "d", false, [], [],
          true, false, false, false⟩
        (chars "01.01.2025") (chars "02.01.2025") (chars "d")
        ⟨.ok (chars "x = 1\n"), none⟩ ⟨none, none⟩).1 = .DRY_RUN :=
  ⟨(dry_run_pure (chars "m.py")
      ⟨chars "A", chars "1.0", chars "MIT License", chars "d", false, [], [],
        true, false, false, false⟩
      (chars "01.01.2025") (chars "02.01.2025") (chars "d")
      ⟨.ok (chars "x = 1\n"), none⟩ ⟨none, none⟩ rfl).1,
   (dry_run_pure (chars "m.py")
      ⟨chars "A", chars "1.0", chars "MIT License", chars "d", false, [], [],
        true, false, false, false⟩
      (chars "01.01.2025") (chars "02.01.2025") (chars "d")
      ⟨.ok (chars "x = 1\n"), none⟩ ⟨none, none⟩ rfl).2
     (chars "x = 1\n") (by decide) rfl (by decide)⟩

/-- **C8.** The transaction is total over the closed status set: every run
returns exactly one of the eight tags (the three failure tags carrying the
underlying message), and a `BACKUP_FAIL` terminates the transaction before
any write to the target file. -/
theorem transaction_status_closed (path : List Char) (args : Args)
    (created today inferDesc : List Char) (st : FileState) (faults : Faults) :
    ((process_file path args created today inferDesc st faults).1 = .SKIP_FILTER
      ∨ (process_file path args created today inferDesc st faults).1 = .ALREADY
      ∨ (process_file path args created today inferDesc st faults).1 = .DRY_RUN
      ∨ (process_file path args created today inferDesc st faults).1 = .ADDED
      ∨ (process_file path args created today inferDesc st faults).1 = .UPDATED
      ∨ (∃ m, (process_file path args created today inferDesc st faults).1 = .READ_FAIL m)
      ∨ (∃ m, (process_file path args created today inferDesc st faults).1 = .WRITE_FAIL m)
      ∨ (∃ m, (process_file path args created today inferDesc st faults).1 = .BACKUP_FAIL m))
    ∧ ((process_file path args created today inferDesc st faults).1.isBackupFail = true →
        ((process_file path args created today inferDesc st faults).2).target = st.target) := by
  constructor
  · rcases hs : (process_file path args created today inferDesc st faults).1 with
      _ | _ | _ | _ | _ | m | m | m
    · exact Or.inl rfl
    · exact Or.inr (Or.inl rfl)
    · exact Or.inr (Or.inr (Or.inl rfl))
    · exact Or.inr (Or.inr (Or.inr (Or.inl rfl)))
    · exact Or.inr (Or.inr (Or.inr (Or.inr (Or.inl rfl))))
    · exact Or.inr (Or.inr (Or.inr (Or.inr (Or.inr (Or.inl ⟨m, rfl⟩)))))
    · exact Or.inr (Or.inr (Or.inr (Or.inr (Or.inr (Or.inr (Or.inl ⟨m, rfl⟩))))))
    · exact Or.inr (Or.inr (Or.inr (Or.inr (Or.inr (Or.inr (Or.inr ⟨m, rfl⟩))))))
  · intro hbf
    rcases process_file_target_cases path args created today inferDesc st faults with
      h | h | h
    · exact h
    · rw [h] at hbf
      simp [Status.isBackupFail] at hbf
    · rw [h] at hbf
      simp [Status.isBackupFail] at hbf

/-- Witness for C8: a run whose backup write faults returns `BACKUP_FAIL`
and leaves the target file untouched. -/
theorem transaction_status_closed_witness :
    ((process_file (chars "m.py") sampleArgs (chars "01.01.2025") (chars "02.01.2025")
        (chars "d") ⟨.ok (chars "x = 1\n"), none⟩
        ⟨some (chars "disk full"), none⟩).2).target
      = FileState.target ⟨.ok (chars "x = 1\n"), none⟩ :=
  (transaction_status_closed (chars "m.py") sampleArgs (chars "01.01.2025")
      (chars "02.01.2025") (chars "d") ⟨.ok (chars "x = 1\n"), none⟩
      ⟨some (chars "disk full"), none⟩).2 (by decide)

/-- **C9.** When the backup step has just created the `.bak` and the
subsequent target write fails, the transaction returns `WRITE_FAIL` with
the target's original content intact — but the fresh backup file stays on
disk: the backup side effect is not rolled back. -/
theorem write_fail_keeps_backup (path : List Char) (args : Args)
    (created today inferDesc : List Char) (st : FileState) (faults : Faults) (c e : List Char)
    (hskip : should_skip path args.include_exts args.exclude = false)
    (hread : st.target = .ok c)
    (hgo : (already_has_header c && !args.overwrite) = false)
    (hdry : args.dry_run = false)
    (hnb : args.no_backup = false)
    (hbak : st.bak = none)
    (hfb : faults.bakWrite = none)
    (hfw : faults.targetWrite = some e) :
    (process_file path args created today inferDesc st faults).1 = .WRITE_FAIL e
    ∧ ((process_file path args created today inferDesc st faults).2).target = .ok c
    ∧ ((process_file path args created today inferDesc st faults).2).bak = some c := by
  have h := process_file_write_fail path args created today inferDesc st faults c e
    hskip hread hgo hdry (Or.inr hfb) hfw
  rw [h]
  refine ⟨rfl, hread, ?_⟩
  simp [hnb, hbak]

/-- Witness for C9 at a concrete input. -/
theorem write_fail_keeps_backup_witness :
    (process_file (chars "m.py") sampleArgs (chars "01.01.2025") (chars "02.01.2025")
        (chars "d") ⟨.ok (chars "x = 1\n"), none⟩ ⟨none, some (chars "no space")⟩).1
      = .WRITE_FAIL (chars "no space")
    ∧ ((process_file (chars "m.py") sampleArgs (chars "01.01.2025") (chars "02.01.2025")
        (chars "d") ⟨.ok (chars "x = 1\n"), none⟩ ⟨none, some (chars "no space")⟩).2).target
      = .ok (chars "x = 1\n")
    ∧ ((process_file (chars "m.py") sampleArgs (chars "01.01.2025") (chars "02.01.2025")
        (chars "d") ⟨.ok (chars "x = 1\n"), none⟩ ⟨none, some (chars "no space")⟩).2).bak
      = some (chars "x = 1\n") :=
  write_fail_keeps_backup (chars "m.py") sampleArgs (chars "01.01.2025") (chars "02.01.2025")
    (chars "d") ⟨.ok (chars "x = 1\n"), none⟩ ⟨none, some (chars "no space")⟩
    (chars "x = 1\n") (chars "no space") (by decide) rfl (by decide) rfl rfl rfl rfl rfl

/-- **C1 (code divergence).** On a file already holding exactly one
occurrence of each sentinel, an overwrite run returns `UPDATED` but the
resulting content holds **two** occurrences of each sentinel: the code
splices a fresh header above the old one and never removes the old block,
contradicting the sentinel invariant (and the `--overwrite` help text,
which promises to update the previously added header). -/
theorem overwrite_duplicates_sentinels :
    (process_file (chars "a.py") overwriteArgs (chars "01.01.2025") (chars "02.01.2025")
        (chars "d") ⟨.ok headeredContent, none⟩ ⟨none, none⟩).1 = .UPDATED
    ∧ countOccs HEADER_MARKER_BEGIN headeredContent = 1
    ∧ countOccs HEADER_MARKER_END headeredContent = 1
    ∧ countOccs HEADER_MARKER_BEGIN (contentOf (process_file (chars "a.py") overwriteArgs
        (chars "01.01.2025") (chars "02.01.2025") (chars "d")
        ⟨.ok headeredContent, none⟩ ⟨none, none⟩).2) = 2
    ∧ countOccs HEADER_MARKER_END (contentOf (process_file (chars "a.py") overwriteArgs
        (chars "01.01.2025") (chars "02.01.2025") (chars "d")
        ⟨.ok headeredContent, none⟩ ⟨none, none⟩).2) = 2 := by
  refine ⟨by decide, by decide, by decide, by decide, by decide⟩
